import Mathlib

/-!
# Precedence climbing (pest, src/pest/src/prec_climber.rs): shallow embedding

This file embeds the `prec_climber` module: the operator-chain builder
(`Operator::new`, the `BitOr` impl), precedence-table construction
(`PrecClimber::new`), and the climbing engine (`climb` / `climb_rec`),
together with theorems about them.

Modelling conventions:
* the grammar-rule type parameter `R` is modelled as `Nat` (the code only
  compares and hashes rules);
* the token iterator is modelled as a `List Pair`; the engine returns the
  final state of the iterator (the tokens it did not consume) explicitly;
* `u32` precedences are modelled as `Nat` (the code never exercises overflow);
* the two `expect` panics in the code are modelled as dedicated error
  results (`Res.errEmpty`, `Res.missingOperand`);
* the recursion of `climb_rec` (two nested `while` loops plus a recursive
  call on a shared iterator) is driven by an explicit fuel parameter that
  strictly decreases at every loop iteration and recursive call; `climb`
  supplies fuel `2 * length + 1`, which is proved sufficient
  (`engine_fuel_sufficient`), and results are proved fuel-stable
  (`engine_fuel_stable`), so the fuel is an artifact of the embedding, not of
  the algorithm.
-/

namespace Pest

/-- Associativity of an operator: enum `Assoc` in the source. -/
inductive Assoc where
  | Left
  | Right
deriving DecidableEq, Repr

/-- Rule identities: an opaque comparable-and-hashable tag, modelled as `Nat`. -/
abbrev Rule := Nat

/-- Struct `Operator`: a rule, its associativity, and an optional owned
next node (`next: Option<Box<Operator<R>>>`) chaining operators intended to
share one precedence group. -/
inductive Operator where
  | mk (rule : Rule) (assoc : Assoc) (next : Option Operator)

/-- Function `Operator::new`: an operator with no `next` link. -/
def Operator.new (rule : Rule) (assoc : Assoc) : Operator :=
  .mk rule assoc none

/-- The `BitOr` impl for `Operator`:
`fn bitor(mut self, rhs: Self) -> Self { self.next = Some(Box::new(rhs)); self }` —
it overwrites the `next` field of the left operand with the right operand
(whatever `next` held before is dropped). -/
def Operator.bitor : Operator → Operator → Operator
  | .mk rule assoc _, rhs => .mk rule assoc (some rhs)

/-- A token (`Pair`): the engine reads only its rule (`as_rule`); the payload
stands for the rest of the pair, opaque to the engine and consumed by the
caller callbacks. -/
structure Pair where
  rule : Rule
  payload : Nat
deriving DecidableEq, Repr

/-- The precedence table `ops: HashMap<R, (u32, Assoc)>`, modelled as a
function to `Option`. -/
abbrev RuleMap := Rule → Option (Nat × Assoc)

/-- An empty `HashMap`. -/
def RuleMap.empty : RuleMap := fun _ => none

/-- A `HashMap` insert: later inserts overwrite earlier ones at the same key. -/
def RuleMap.insert (m : RuleMap) (k : Rule) (v : Nat × Assoc) : RuleMap :=
  fun r => if r = k then some v else m r

/-- The inner `while let Some(op) = next.take()` loop of `PrecClimber::new`:
walk a chain along its `next` links, inserting every operator visited with the
one precedence `prec` and its own associativity. -/
def insertChain (m : RuleMap) (prec : Nat) : Operator → RuleMap
  | .mk rule assoc none => m.insert rule (prec, assoc)
  | .mk rule assoc (some op) => insertChain (m.insert rule (prec, assoc)) prec op

/-- The fold of `PrecClimber::new` over `ops.into_iter().zip(1..)`: group at
0-based position i is inserted with precedence i + 1. -/
def buildOps : Nat → List Operator → RuleMap → RuleMap
  | _, [], m => m
  | prec, op :: rest, m => buildOps (prec + 1) rest (insertChain m prec op)

/-- Function `PrecClimber::new`: build the precedence table from the ordered
list of chain heads, precedences starting at 1. -/
def PrecClimber.new (ops : List Operator) : RuleMap :=
  buildOps 1 ops RuleMap.empty

/-- The rule/associativity entries reachable from a chain head by following
`next` links, in walk order. -/
def chainOps : Operator → List (Rule × Assoc)
  | .mk rule assoc none => [(rule, assoc)]
  | .mk rule assoc (some op) => (rule, assoc) :: chainOps op

/-- The exact insert sequence `PrecClimber::new` performs, starting at
precedence `prec`: each chain contributes its operators in walk order, all
with the chain position as precedence. -/
def logBuild : Nat → List Operator → List (Rule × Nat × Assoc)
  | _, [] => []
  | prec, op :: rest =>
      ((chainOps op).map fun ra => (ra.1, prec, ra.2)) ++ logBuild (prec + 1) rest

/-- The insert sequence of `PrecClimber::new` (precedences from 1). -/
def insertLog (ops : List Operator) : List (Rule × Nat × Assoc) :=
  logBuild 1 ops

/-- Replay a sequence of map writes for one key: the last write wins. -/
def lookupLast (log : List (Rule × Nat × Assoc)) (r : Rule) : Option (Nat × Assoc) :=
  log.foldl (fun acc e => if e.1 = r then some e.2 else acc) none

/-- Result of a climb: the computed value together with the final state of the
token iterator (the tokens the engine did not consume), or one of the two
panics the code can raise (`errEmpty` for the `expect` at line 166,
`missingOperand` for the `expect` at lines 188-189), or exhaustion of the
step budget of this embedding (`outOfFuel`, proved unreachable for the fuel
`climb` supplies). -/
inductive Res (T : Type) where
  | ok (val : T) (rest : List Pair)
  | errEmpty
  | missingOperand
  | outOfFuel
deriving DecidableEq, Repr

mutual

/-- Method `climb_rec` (lines 170-214), outer `while pairs.peek().is_some()`
loop: peek the next token; stop (returning the accumulated `lhs` and leaving
the iterator untouched) when it is absent from the table or its precedence is
below `minPrec`; otherwise consume it as the operator `p`, consume the
following token as the provisional right-hand side through `primary` (a
missing one is the line 188 panic), extend the right-hand side through the
inner lookahead loop, reduce with `infx`, and continue the loop. Rust's
iterator mutation is modelled by passing the remaining list along; the loop
and the recursion are driven by the strictly decreasing fuel. -/
def climbRec {T : Type} (ops : RuleMap) (primary : Pair → T)
    (infx : T → Pair → T → T) (fuel : Nat) (lhs : T) (minPrec : Nat)
    (pairs : List Pair) : Res T :=
  match fuel with
  | 0 => .outOfFuel
  | fuel + 1 =>
    match pairs with
    | [] => .ok lhs []
    | p :: rest =>
      match ops p.rule with
      | none => .ok lhs (p :: rest)
      | some (prec, _) =>
        if prec ≥ minPrec then
          match rest with
          | [] => .missingOperand
          | q :: rest2 =>
            match innerLoop ops primary infx fuel (primary q) prec rest2 with
            | .ok rhs rest3 => climbRec ops primary infx fuel (infx lhs p rhs) minPrec rest3
            | e => e
        else .ok lhs (p :: rest)

/-- The inner `while pairs.peek().is_some()` lookahead loop of `climb_rec`
(lines 191-202): while the peeked token is in the table with precedence
`newPrec` and associativity `assoc` (note: the associativity of the peeked,
next operator) such that `newPrec > prec`, or `assoc == Assoc::Right`
together with `newPrec == prec`, recursively climb from the provisional
right-hand side with minimum precedence `newPrec`; otherwise break. -/
def innerLoop {T : Type} (ops : RuleMap) (primary : Pair → T)
    (infx : T → Pair → T → T) (fuel : Nat) (rhs : T) (prec : Nat)
    (pairs : List Pair) : Res T :=
  match fuel with
  | 0 => .outOfFuel
  | fuel + 1 =>
    match pairs with
    | [] => .ok rhs []
    | r :: rest =>
      match ops r.rule with
      | none => .ok rhs (r :: rest)
      | some (newPrec, assoc) =>
        if newPrec > prec ∨ (assoc = Assoc.Right ∧ newPrec = prec) then
          match climbRec ops primary infx fuel rhs newPrec (r :: rest) with
          | .ok rhs2 rest2 => innerLoop ops primary infx fuel rhs2 prec rest2
          | e => e
        else .ok rhs (r :: rest)

end

/-- Method `climb` (lines 155-168): consume the first token as the initial
left-hand value through `primary` (an empty sequence is the line 166 panic,
modelled as `errEmpty`) and hand over to `climb_rec` with minimum precedence
0. The fuel `2 * rest.length + 1` is proved sufficient. -/
def climb {T : Type} (ops : RuleMap) (primary : Pair → T)
    (infx : T → Pair → T → T) (pairs : List Pair) : Res T :=
  match pairs with
  | [] => .errEmpty
  | p :: rest => climbRec ops primary infx (2 * rest.length + 1) (primary p) 0 rest

mutual

/-- Modelled from the spec: the engine exactly as claim C1 words it, for
comparison with `climbRec`. It differs from the code in one point only: the
lookahead tie-break on equal precedence consults the associativity of the
CURRENT operator (the one already consumed, whose table entry is
`(prec, curAssoc)`), not that of the peeked next operator. -/
def climbRecClaim {T : Type} (ops : RuleMap) (primary : Pair → T)
    (infx : T → Pair → T → T) (fuel : Nat) (lhs : T) (minPrec : Nat)
    (pairs : List Pair) : Res T :=
  match fuel with
  | 0 => .outOfFuel
  | fuel + 1 =>
    match pairs with
    | [] => .ok lhs []
    | p :: rest =>
      match ops p.rule with
      | none => .ok lhs (p :: rest)
      | some (prec, curAssoc) =>
        if prec ≥ minPrec then
          match rest with
          | [] => .missingOperand
          | q :: rest2 =>
            match innerLoopClaim ops primary infx fuel (primary q) prec curAssoc rest2 with
            | .ok rhs rest3 =>
                climbRecClaim ops primary infx fuel (infx lhs p rhs) minPrec rest3
            | e => e
        else .ok lhs (p :: rest)

/-- Modelled from the spec: the lookahead loop as claim C1 words it — recurse
exactly when the peeked operator's precedence is strictly greater than
`prec`, or equal to `prec` with the CURRENT operator (associativity
`curAssoc`) right-associative; the threshold of the recursive call is the
peeked operator's precedence. -/
def innerLoopClaim {T : Type} (ops : RuleMap) (primary : Pair → T)
    (infx : T → Pair → T → T) (fuel : Nat) (rhs : T) (prec : Nat)
    (curAssoc : Assoc) (pairs : List Pair) : Res T :=
  match fuel with
  | 0 => .outOfFuel
  | fuel + 1 =>
    match pairs with
    | [] => .ok rhs []
    | r :: rest =>
      match ops r.rule with
      | none => .ok rhs (r :: rest)
      | some (newPrec, _) =>
        if newPrec > prec ∨ (curAssoc = Assoc.Right ∧ newPrec = prec) then
          match climbRecClaim ops primary infx fuel rhs newPrec (r :: rest) with
          | .ok rhs2 rest2 => innerLoopClaim ops primary infx fuel rhs2 prec curAssoc rest2
          | e => e
        else .ok rhs (r :: rest)

end

/-- Modelled from the spec: entry point for the claim-C1 variant engine. -/
def climbClaim {T : Type} (ops : RuleMap) (primary : Pair → T)
    (infx : T → Pair → T → T) (pairs : List Pair) : Res T :=
  match pairs with
  | [] => .errEmpty
  | p :: rest => climbRecClaim ops primary infx (2 * rest.length + 1) (primary p) 0 rest

/-- Concrete value type used to observe the callbacks: climbing with
`Expr.prim` as the primary callback and `Expr.node` as the combining callback
records the exact reduction tree, operator tokens included. -/
inductive Expr where
  | prim (p : Pair)
  | node (l : Expr) (op : Pair) (r : Expr)
deriving DecidableEq, Repr

/-- A well-formed alternating token sequence in the sense of the spec: odd
length, every token at an odd (0-based) position is an operator of the table,
every token at an even position is not. -/
def Alternates (ops : RuleMap) (pairs : List Pair) : Prop :=
  pairs.length % 2 = 1 ∧
    (∀ i (h : i < pairs.length),
      i % 2 = 1 → (ops (pairs.get ⟨i, h⟩).rule).isSome = true) ∧
    (∀ i (h : i < pairs.length),
      i % 2 = 0 → (ops (pairs.get ⟨i, h⟩).rule).isSome = false)

/-- Table with a single left-associative operator (rule 1) at precedence 1. -/
def opsAdd : RuleMap := PrecClimber.new [Operator.new 1 Assoc.Left]

/-- Table with a single right-associative operator (rule 2) at precedence 1. -/
def opsPow : RuleMap := PrecClimber.new [Operator.new 2 Assoc.Right]

/-- Table with rule 1 left-associative at precedence 1 and rule 3
left-associative at precedence 2. -/
def opsAddMul : RuleMap :=
  PrecClimber.new [Operator.new 1 Assoc.Left, Operator.new 3 Assoc.Left]

/-- Table with one precedence group mixing associativities: rule 1
left-associative and rule 2 right-associative, both at precedence 1 (built by
chaining the two operators with the group-with operation). -/
def opsMixed : RuleMap :=
  PrecClimber.new [Operator.bitor (Operator.new 1 Assoc.Left) (Operator.new 2 Assoc.Right)]

instance instDecidableAlternates (ops : RuleMap) (pairs : List Pair) :
    Decidable (Alternates ops pairs) := by
  unfold Alternates; infer_instance

/-- A primary token, rule 10 (absent from all tables above). -/
def pa : Pair := ⟨10, 0⟩

/-- A primary token, rule 11. -/
def pb : Pair := ⟨11, 0⟩

/-- A primary token, rule 12. -/
def pc : Pair := ⟨12, 0⟩

/-- A first operator token of rule 1 (the left-associative `+`). -/
def plus1 : Pair := ⟨1, 0⟩

/-- A second, distinguishable operator token of rule 1. -/
def plus2 : Pair := ⟨1, 1⟩

/-- A first operator token of rule 2 (the right-associative `^`). -/
def pow1 : Pair := ⟨2, 0⟩

/-- A second, distinguishable operator token of rule 2. -/
def pow2 : Pair := ⟨2, 1⟩

/-- An operator token of rule 3 (the `*` of precedence 2 in `opsAddMul`). -/
def mul1 : Pair := ⟨3, 0⟩

/-- A token whose rule 99 is absent from every table above. -/
def jOut : Pair := ⟨99, 0⟩

/-- A second token whose rule 98 is absent from every table above. -/
def jOut2 : Pair := ⟨98, 0⟩

/-! ## Theorems: precedence-table construction -/

/-- Walking a chain with `insertChain` acts on one key like folding the
chain's entries left to right, later writes overwriting earlier ones. -/
theorem insertChain_apply (prec : Nat) (r : Rule) :
    ∀ (c : Operator) (m : RuleMap),
      insertChain m prec c r =
        (chainOps c).foldl (fun acc ra => if ra.1 = r then some (prec, ra.2) else acc) (m r)
  | .mk ru a none, m => by
      simp only [insertChain, chainOps, List.foldl, RuleMap.insert]
      by_cases h : r = ru
      · subst h; simp
      · simp [h, Ne.symm h]
  | .mk ru a (some op), m => by
      rw [insertChain, chainOps, List.foldl,
        insertChain_apply prec r op (RuleMap.insert m ru (prec, a))]
      have : RuleMap.insert m ru (prec, a) r =
          (if ru = r then some (prec, a) else m r) := by
        simp only [RuleMap.insert]
        by_cases h : r = ru
        · subst h; simp
        · simp [h, Ne.symm h]
      rw [this]

/-- The table `buildOps` builds acts on one key like replaying the insert
sequence `logBuild` records, starting from the incoming map's entry. -/
theorem buildOps_apply (r : Rule) :
    ∀ (rest : List Operator) (prec : Nat) (m : RuleMap),
      buildOps prec rest m r =
        (logBuild prec rest).foldl (fun acc e => if e.1 = r then some e.2 else acc) (m r)
  | [], _, m => by simp [buildOps, logBuild]
  | op :: rest, prec, m => by
      rw [buildOps, logBuild, List.foldl_append,
        buildOps_apply r rest (prec + 1) (insertChain m prec op), List.foldl_map,
        insertChain_apply prec r op m]

/-- Membership in a chain at 0-based position i of the group list puts the
entry, with precedence `prec + i`, into the insert sequence. -/
theorem mem_logBuild_of_mem_chainOps (r : Rule) (a : Assoc) :
    ∀ (ops : List Operator) (prec i : Nat) (hi : i < ops.length),
      (r, a) ∈ chainOps (ops.get ⟨i, hi⟩) → (r, prec + i, a) ∈ logBuild prec ops
  | [], _, i, hi => by cases hi
  | op :: rest, prec, 0, _ => by
      intro hmem
      rw [logBuild]
      exact List.mem_append_left _
        (List.mem_map.mpr ⟨(r, a), hmem, rfl⟩)
  | op :: rest, prec, i + 1, hi => by
      intro hmem
      rw [logBuild]
      refine List.mem_append_right _ ?_
      have := mem_logBuild_of_mem_chainOps r a rest (prec + 1) i
        (Nat.lt_of_succ_lt_succ hi) hmem
      simpa [Nat.add_assoc, Nat.add_comm 1 i] using this

/-- Replaying writes over a sequence holding no write for the key leaves the
initial value. -/
theorem foldl_write_of_filter_nil (r : Rule) :
    ∀ (log : List (Rule × Nat × Assoc)) (init : Option (Nat × Assoc)),
      (log.filter fun e => decide (e.1 = r)) = [] →
      log.foldl (fun acc e => if e.1 = r then some e.2 else acc) init = init
  | [], init => by intro _; rfl
  | e :: log, init => by
      intro h
      by_cases he : e.1 = r
      · simp [List.filter_cons, he] at h
      · rw [List.foldl]
        simp only [he, if_false]
        refine foldl_write_of_filter_nil r log init ?_
        simpa [List.filter_cons, he] using h

/-- Replaying writes over a sequence holding exactly one write for the key
yields that write. -/
theorem lookupLast_of_filter_singleton (r : Rule) (x : Rule × Nat × Assoc) :
    ∀ (log : List (Rule × Nat × Assoc)),
      (log.filter fun e => decide (e.1 = r)) = [x] →
      lookupLast log r = some x.2
  | [] => by intro h; simp at h
  | e :: log => by
      intro h
      by_cases he : e.1 = r
      · have h2 : e :: (log.filter fun e => decide (e.1 = r)) = [x] := by
          simpa [List.filter_cons, he] using h
        obtain ⟨hx, hrest⟩ := List.cons_eq_cons.mp h2
        rw [lookupLast, List.foldl]
        simp only [he, if_true]
        rw [foldl_write_of_filter_nil r log (some e.2) hrest, hx]
      · rw [lookupLast, List.foldl]
        simp only [he, if_false]
        refine lookupLast_of_filter_singleton r x log ?_
        simpa [List.filter_cons, he] using h

/-! ## Theorems: general facts about the climbing engine

All engine lemmas are proved by one simultaneous induction on the fuel,
covering the outer loop (`climbRec`) and the inner lookahead loop
(`innerLoop`) together. -/

/-- The engine itself never raises the empty-input condition: that condition
belongs to `climb` alone. -/
theorem engine_ne_errEmpty (fuel : Nat) :
    (∀ (T : Type) (ops : RuleMap) (primary : Pair → T) (infx : T → Pair → T → T)
      (lhs : T) (minPrec : Nat) (pairs : List Pair),
      climbRec ops primary infx fuel lhs minPrec pairs ≠ Res.errEmpty) ∧
    (∀ (T : Type) (ops : RuleMap) (primary : Pair → T) (infx : T → Pair → T → T)
      (rhs : T) (prec : Nat) (pairs : List Pair),
      innerLoop ops primary infx fuel rhs prec pairs ≠ Res.errEmpty) := by
  induction fuel with
  | zero =>
    constructor
    · intro T ops primary infx lhs minPrec pairs
      rw [climbRec.eq_def]
      simp
    · intro T ops primary infx rhs prec pairs
      rw [innerLoop.eq_def]
      simp
  | succ f ih =>
    constructor
    · intro T ops primary infx lhs minPrec pairs
      rw [climbRec.eq_def]
      cases pairs with
      | nil => simp
      | cons p rest =>
        cases hop : ops p.rule with
        | none => simp [hop]
        | some pa =>
          obtain ⟨prec, a⟩ := pa
          simp only [hop]
          by_cases hge : minPrec ≤ prec
          · simp only [if_pos hge]
            cases rest with
            | nil => simp
            | cons q rest2 =>
              cases hin : innerLoop ops primary infx f (primary q) prec rest2 with
              | ok rhs rest3 =>
                simp only [hin]
                exact ih.1 T ops primary infx (infx lhs p rhs) minPrec rest3
              | errEmpty =>
                exact absurd hin (ih.2 T ops primary infx (primary q) prec rest2)
              | missingOperand => simp [hin]
              | outOfFuel => simp [hin]
          · simp [if_neg hge]
    · intro T ops primary infx rhs prec pairs
      rw [innerLoop.eq_def]
      cases pairs with
      | nil => simp
      | cons r rest =>
        cases hop : ops r.rule with
        | none => simp [hop]
        | some pa =>
          obtain ⟨newPrec, a⟩ := pa
          simp only [hop]
          by_cases hc : newPrec > prec ∨ (a = Assoc.Right ∧ newPrec = prec)
          · simp only [if_pos hc]
            cases hcl : climbRec ops primary infx f rhs newPrec (r :: rest) with
            | ok rhs2 rest2 =>
              simp only [hcl]
              exact ih.2 T ops primary infx rhs2 prec rest2
            | errEmpty =>
              exact absurd hcl (ih.1 T ops primary infx rhs newPrec (r :: rest))
            | missingOperand => simp [hcl]
            | outOfFuel => simp [hcl]
          · simp [if_neg hc]

/-- A successful run never lengthens the iterator: the tokens left over are
at most the tokens supplied. -/
theorem engine_len (fuel : Nat) :
    (∀ (T : Type) (ops : RuleMap) (primary : Pair → T) (infx : T → Pair → T → T)
      (lhs : T) (minPrec : Nat) (pairs : List Pair) (v : T) (rest : List Pair),
      climbRec ops primary infx fuel lhs minPrec pairs = Res.ok v rest →
      rest.length ≤ pairs.length) ∧
    (∀ (T : Type) (ops : RuleMap) (primary : Pair → T) (infx : T → Pair → T → T)
      (rhs : T) (prec : Nat) (pairs : List Pair) (v : T) (rest : List Pair),
      innerLoop ops primary infx fuel rhs prec pairs = Res.ok v rest →
      rest.length ≤ pairs.length) := by
  induction fuel with
  | zero =>
    constructor
    · intro T ops primary infx lhs minPrec pairs v rest h
      rw [climbRec.eq_def] at h
      simp at h
    · intro T ops primary infx rhs prec pairs v rest h
      rw [innerLoop.eq_def] at h
      simp at h
  | succ f ih =>
    constructor
    · intro T ops primary infx lhs minPrec pairs v rest h
      rw [climbRec.eq_def] at h
      cases pairs with
      | nil =>
        simp only [Res.ok.injEq] at h
        rw [← h.2]
      | cons p rest0 =>
        cases hop : ops p.rule with
        | none =>
          simp only [hop, Res.ok.injEq] at h
          rw [← h.2]
        | some pa =>
          obtain ⟨prec, a⟩ := pa
          simp only [hop] at h
          by_cases hge : minPrec ≤ prec
          · simp only [if_pos hge] at h
            cases rest0 with
            | nil => simp at h
            | cons q rest2 =>
              cases hin : innerLoop ops primary infx f (primary q) prec rest2 with
              | ok rhs rest3 =>
                simp only [hin] at h
                have h1 := ih.1 T ops primary infx (infx lhs p rhs) minPrec rest3 v rest h
                have h2 := ih.2 T ops primary infx (primary q) prec rest2 rhs rest3 hin
                simp only [List.length_cons]
                omega
              | errEmpty => simp [hin] at h
              | missingOperand => simp [hin] at h
              | outOfFuel => simp [hin] at h
          · simp only [if_neg hge, Res.ok.injEq] at h
            rw [← h.2]
    · intro T ops primary infx rhs prec pairs v rest h
      rw [innerLoop.eq_def] at h
      cases pairs with
      | nil =>
        simp only [Res.ok.injEq] at h
        rw [← h.2]
      | cons r rest0 =>
        cases hop : ops r.rule with
        | none =>
          simp only [hop, Res.ok.injEq] at h
          rw [← h.2]
        | some pa =>
          obtain ⟨newPrec, a⟩ := pa
          simp only [hop] at h
          by_cases hc : newPrec > prec ∨ (a = Assoc.Right ∧ newPrec = prec)
          · simp only [if_pos hc] at h
            cases hcl : climbRec ops primary infx f rhs newPrec (r :: rest0) with
            | ok rhs2 rest2 =>
              simp only [hcl] at h
              have h1 := ih.2 T ops primary infx rhs2 prec rest2 v rest h
              have h2 := ih.1 T ops primary infx rhs newPrec (r :: rest0) rhs2 rest2 hcl
              simp only [List.length_cons] at h2 ⊢
              omega
            | errEmpty => simp [hcl] at h
            | missingOperand => simp [hcl] at h
            | outOfFuel => simp [hcl] at h
          · simp only [if_neg hc, Res.ok.injEq] at h
            rw [← h.2]

/-- When the head of the iterator is a table operator that binds (its
precedence reaches the threshold), a successful run of the outer loop
consumes at least that operator and one further token. -/
theorem climbRec_consume (T : Type) (ops : RuleMap) (primary : Pair → T)
    (infx : T → Pair → T → T) (fuel : Nat) (rhs : T) (minPrec : Nat)
    (r : Pair) (rest : List Pair) (newPrec : Nat) (assoc : Assoc)
    (v : T) (rest2 : List Pair)
    (hop : ops r.rule = some (newPrec, assoc)) (hge : minPrec ≤ newPrec)
    (h : climbRec ops primary infx fuel rhs minPrec (r :: rest) = Res.ok v rest2) :
    rest2.length + 1 ≤ rest.length := by
  cases fuel with
  | zero =>
    rw [climbRec.eq_def] at h
    simp at h
  | succ f =>
    rw [climbRec.eq_def] at h
    simp only [hop, if_pos hge] at h
    cases rest with
    | nil => simp at h
    | cons q rest3 =>
      cases hin : innerLoop ops primary infx f (primary q) newPrec rest3 with
      | ok rhs3 rest4 =>
        simp only [hin] at h
        have h1 := (engine_len f).1 T ops primary infx (infx rhs r rhs3) minPrec rest4 v rest2 h
        have h2 := (engine_len f).2 T ops primary infx (primary q) newPrec rest3 rhs3 rest4 hin
        simp only [List.length_cons]
        omega
      | errEmpty => simp [hin] at h
      | missingOperand => simp [hin] at h
      | outOfFuel => simp [hin] at h

/-- Fuel 2n+1 suffices for the outer loop on n remaining tokens, and 2n+2
for the inner loop: the engine's recursion is bounded by the token count. -/
theorem engine_fuel_sufficient (fuel : Nat) :
    (∀ (T : Type) (ops : RuleMap) (primary : Pair → T) (infx : T → Pair → T → T)
      (lhs : T) (minPrec : Nat) (pairs : List Pair),
      2 * pairs.length + 1 ≤ fuel →
      climbRec ops primary infx fuel lhs minPrec pairs ≠ Res.outOfFuel) ∧
    (∀ (T : Type) (ops : RuleMap) (primary : Pair → T) (infx : T → Pair → T → T)
      (rhs : T) (prec : Nat) (pairs : List Pair),
      2 * pairs.length + 2 ≤ fuel →
      innerLoop ops primary infx fuel rhs prec pairs ≠ Res.outOfFuel) := by
  induction fuel with
  | zero =>
    constructor
    · intro T ops primary infx lhs minPrec pairs hfuel
      omega
    · intro T ops primary infx rhs prec pairs hfuel
      omega
  | succ f ih =>
    constructor
    · intro T ops primary infx lhs minPrec pairs hfuel
      rw [climbRec.eq_def]
      cases pairs with
      | nil => simp
      | cons p rest =>
        cases hop : ops p.rule with
        | none => simp [hop]
        | some pa =>
          obtain ⟨prec, a⟩ := pa
          simp only [hop]
          by_cases hge : minPrec ≤ prec
          · simp only [if_pos hge]
            cases rest with
            | nil => simp
            | cons q rest2 =>
              simp only [List.length_cons] at hfuel
              cases hin : innerLoop ops primary infx f (primary q) prec rest2 with
              | ok rhs rest3 =>
                simp only [hin]
                have h3 := (engine_len f).2 T ops primary infx (primary q) prec rest2 rhs rest3 hin
                refine ih.1 T ops primary infx (infx lhs p rhs) minPrec rest3 ?_
                omega
              | errEmpty => simp [hin]
              | missingOperand => simp [hin]
              | outOfFuel =>
                exfalso
                refine ih.2 T ops primary infx (primary q) prec rest2 ?_ hin
                omega
          · simp [if_neg hge]
    · intro T ops primary infx rhs prec pairs hfuel
      rw [innerLoop.eq_def]
      cases pairs with
      | nil => simp
      | cons r rest =>
        cases hop : ops r.rule with
        | none => simp [hop]
        | some pa =>
          obtain ⟨newPrec, a⟩ := pa
          simp only [hop]
          by_cases hc : newPrec > prec ∨ (a = Assoc.Right ∧ newPrec = prec)
          · simp only [if_pos hc]
            simp only [List.length_cons] at hfuel
            cases hcl : climbRec ops primary infx f rhs newPrec (r :: rest) with
            | ok rhs2 rest2 =>
              simp only [hcl]
              have hcons := climbRec_consume T ops primary infx f rhs newPrec r rest
                newPrec a rhs2 rest2 hop (Nat.le_refl newPrec) hcl
              refine ih.2 T ops primary infx rhs2 prec rest2 ?_
              omega
            | errEmpty => simp [hcl]
            | missingOperand => simp [hcl]
            | outOfFuel =>
              exfalso
              refine ih.1 T ops primary infx rhs newPrec (r :: rest) ?_ hcl
              simp only [List.length_cons]
              omega
          · simp [if_neg hc]

/-- A completed run is stable under more fuel: the fuel of this embedding
does not influence the value computed, only whether the computation finished. -/
theorem engine_fuel_stable (f1 : Nat) :
    (∀ (f2 : Nat) (T : Type) (ops : RuleMap) (primary : Pair → T)
      (infx : T → Pair → T → T) (lhs : T) (minPrec : Nat) (pairs : List Pair),
      f1 ≤ f2 → climbRec ops primary infx f1 lhs minPrec pairs ≠ Res.outOfFuel →
      climbRec ops primary infx f2 lhs minPrec pairs =
        climbRec ops primary infx f1 lhs minPrec pairs) ∧
    (∀ (f2 : Nat) (T : Type) (ops : RuleMap) (primary : Pair → T)
      (infx : T → Pair → T → T) (rhs : T) (prec : Nat) (pairs : List Pair),
      f1 ≤ f2 → innerLoop ops primary infx f1 rhs prec pairs ≠ Res.outOfFuel →
      innerLoop ops primary infx f2 rhs prec pairs =
        innerLoop ops primary infx f1 rhs prec pairs) := by
  induction f1 with
  | zero =>
    constructor
    · intro f2 T ops primary infx lhs minPrec pairs _ h
      rw [climbRec.eq_def] at h
      simp at h
    · intro f2 T ops primary infx rhs prec pairs _ h
      rw [innerLoop.eq_def] at h
      simp at h
  | succ f ih =>
    constructor
    · intro f2 T ops primary infx lhs minPrec pairs hle h
      obtain ⟨f2, rfl⟩ : ∃ g, f2 = g + 1 := ⟨f2 - 1, by omega⟩
      have hle2 : f ≤ f2 := by omega
      rw [climbRec.eq_def] at h ⊢
      conv_rhs => rw [climbRec.eq_def]
      cases pairs with
      | nil => rfl
      | cons p rest =>
        cases hop : ops p.rule with
        | none => simp [hop]
        | some pa =>
          obtain ⟨prec, a⟩ := pa
          simp only [hop] at h ⊢
          by_cases hge : minPrec ≤ prec
          · simp only [if_pos hge] at h ⊢
            cases rest with
            | nil => rfl
            | cons q rest2 =>
              cases hin : innerLoop ops primary infx f (primary q) prec rest2 with
              | ok rhs rest3 =>
                have hin2 : innerLoop ops primary infx f2 (primary q) prec rest2 =
                    Res.ok rhs rest3 := by
                  rw [ih.2 f2 T ops primary infx (primary q) prec rest2 hle2 (by simp [hin])]
                  exact hin
                simp only [hin, hin2] at h ⊢
                exact ih.1 f2 T ops primary infx (infx lhs p rhs) minPrec rest3 hle2 h
              | errEmpty =>
                have hin2 : innerLoop ops primary infx f2 (primary q) prec rest2 =
                    Res.errEmpty := by
                  rw [ih.2 f2 T ops primary infx (primary q) prec rest2 hle2 (by simp [hin])]
                  exact hin
                simp [hin, hin2]
              | missingOperand =>
                have hin2 : innerLoop ops primary infx f2 (primary q) prec rest2 =
                    Res.missingOperand := by
                  rw [ih.2 f2 T ops primary infx (primary q) prec rest2 hle2 (by simp [hin])]
                  exact hin
                simp [hin, hin2]
              | outOfFuel =>
                simp [hin] at h
          · simp [if_neg hge]
    · intro f2 T ops primary infx rhs prec pairs hle h
      obtain ⟨f2, rfl⟩ : ∃ g, f2 = g + 1 := ⟨f2 - 1, by omega⟩
      have hle2 : f ≤ f2 := by omega
      rw [innerLoop.eq_def] at h ⊢
      conv_rhs => rw [innerLoop.eq_def]
      cases pairs with
      | nil => rfl
      | cons r rest =>
        cases hop : ops r.rule with
        | none => simp [hop]
        | some pa =>
          obtain ⟨newPrec, a⟩ := pa
          simp only [hop] at h ⊢
          by_cases hc : newPrec > prec ∨ (a = Assoc.Right ∧ newPrec = prec)
          · simp only [if_pos hc] at h ⊢
            cases hcl : climbRec ops primary infx f rhs newPrec (r :: rest) with
            | ok rhs2 rest2 =>
              have hcl2 : climbRec ops primary infx f2 rhs newPrec (r :: rest) =
                  Res.ok rhs2 rest2 := by
                rw [ih.1 f2 T ops primary infx rhs newPrec (r :: rest) hle2 (by simp [hcl])]
                exact hcl
              simp only [hcl, hcl2] at h ⊢
              exact ih.2 f2 T ops primary infx rhs2 prec rest2 hle2 h
            | errEmpty =>
              have hcl2 : climbRec ops primary infx f2 rhs newPrec (r :: rest) =
                  Res.errEmpty := by
                rw [ih.1 f2 T ops primary infx rhs newPrec (r :: rest) hle2 (by simp [hcl])]
                exact hcl
              simp [hcl, hcl2]
            | missingOperand =>
              have hcl2 : climbRec ops primary infx f2 rhs newPrec (r :: rest) =
                  Res.missingOperand := by
                rw [ih.1 f2 T ops primary infx rhs newPrec (r :: rest) hle2 (by simp [hcl])]
                exact hcl
              simp [hcl, hcl2]
            | outOfFuel =>
              simp [hcl] at h
          · simp [if_neg hc]

/-- On a remainder of even length the engine, when it completes, completes
successfully (no abort) and leaves an even remainder again: after the leading
primary the engine always consumes operator and operand together. -/
theorem engine_even (fuel : Nat) :
    (∀ (T : Type) (ops : RuleMap) (primary : Pair → T) (infx : T → Pair → T → T)
      (lhs : T) (minPrec : Nat) (pairs : List Pair),
      pairs.length % 2 = 0 →
      climbRec ops primary infx fuel lhs minPrec pairs = Res.outOfFuel ∨
        ∃ v rest, climbRec ops primary infx fuel lhs minPrec pairs = Res.ok v rest ∧
          rest.length % 2 = 0) ∧
    (∀ (T : Type) (ops : RuleMap) (primary : Pair → T) (infx : T → Pair → T → T)
      (rhs : T) (prec : Nat) (pairs : List Pair),
      pairs.length % 2 = 0 →
      innerLoop ops primary infx fuel rhs prec pairs = Res.outOfFuel ∨
        ∃ v rest, innerLoop ops primary infx fuel rhs prec pairs = Res.ok v rest ∧
          rest.length % 2 = 0) := by
  induction fuel with
  | zero =>
    constructor
    · intro T ops primary infx lhs minPrec pairs _
      left
      rw [climbRec.eq_def]
    · intro T ops primary infx rhs prec pairs _
      left
      rw [innerLoop.eq_def]
  | succ f ih =>
    constructor
    · intro T ops primary infx lhs minPrec pairs heven
      rw [climbRec.eq_def]
      cases pairs with
      | nil => exact Or.inr ⟨lhs, [], rfl, rfl⟩
      | cons p rest =>
        cases hop : ops p.rule with
        | none =>
          simp only [hop]
          exact Or.inr ⟨lhs, p :: rest, rfl, heven⟩
        | some pa =>
          obtain ⟨prec, a⟩ := pa
          simp only [hop]
          by_cases hge : minPrec ≤ prec
          · simp only [if_pos hge]
            cases rest with
            | nil => simp at heven
            | cons q rest2 =>
              have heven2 : rest2.length % 2 = 0 := by
                simp only [List.length_cons] at heven
                omega
              obtain hin | ⟨rhs, rest3, hin, hr3⟩ :=
                ih.2 T ops primary infx (primary q) prec rest2 heven2
              · simp only [hin]
                exact Or.inl trivial
              · simp only [hin]
                exact ih.1 T ops primary infx (infx lhs p rhs) minPrec rest3 hr3
          · simp only [if_neg hge]
            exact Or.inr ⟨lhs, p :: rest, rfl, heven⟩
    · intro T ops primary infx rhs prec pairs heven
      rw [innerLoop.eq_def]
      cases pairs with
      | nil => exact Or.inr ⟨rhs, [], rfl, rfl⟩
      | cons r rest =>
        cases hop : ops r.rule with
        | none =>
          simp only [hop]
          exact Or.inr ⟨rhs, r :: rest, rfl, heven⟩
        | some pa =>
          obtain ⟨newPrec, a⟩ := pa
          simp only [hop]
          by_cases hc : newPrec > prec ∨ (a = Assoc.Right ∧ newPrec = prec)
          · simp only [if_pos hc]
            obtain hcl | ⟨rhs2, rest2, hcl, hr2⟩ :=
              ih.1 T ops primary infx rhs newPrec (r :: rest) heven
            · simp only [hcl]
              exact Or.inl trivial
            · simp only [hcl]
              exact ih.2 T ops primary infx rhs2 prec rest2 hr2
          · simp only [if_neg hc]
            exact Or.inr ⟨rhs, r :: rest, rfl, heven⟩

/-! ## Theorems: the claims -/

/-- Helper shared by the table claims: the table acts on every rule exactly
like replaying the insert sequence, last write winning. -/
theorem new_eq_lookupLast (ops : List Operator) (r : Rule) :
    PrecClimber.new ops r = lookupLast (insertLog ops) r := by
  rw [PrecClimber.new, insertLog, lookupLast, buildOps_apply r ops 1 RuleMap.empty]
  rfl

/-- C7: if the same rule identity appears in more than one precedence group
(or more than once overall), the entry the table keeps for it is the one of
the later-processed occurrence — the table is exactly the replay of the
insert sequence of the groups in order, last write winning; construction is
total, so no error or warning is possible. -/
theorem new_last_write_wins (ops : List Operator) (r : Rule) :
    PrecClimber.new ops r = lookupLast (insertLog ops) r :=
  new_eq_lookupLast ops r

/-- C6, counterexample: with the duplicated rule 0 in two groups, the
operator (0, Left) is reachable from the chain head at position 0, yet the
table does not map rule 0 to precedence 0 + 1 with associativity Left — the
later group overwrote it with (2, Right). -/
theorem new_duplicate_rule_counterexample :
    (0, Assoc.Left) ∈ chainOps (([Operator.new 0 Assoc.Left, Operator.new 0 Assoc.Right] :
        List Operator).get ⟨0, by decide⟩) ∧
    PrecClimber.new [Operator.new 0 Assoc.Left, Operator.new 0 Assoc.Right] 0 ≠
      some (0 + 1, Assoc.Left) ∧
    PrecClimber.new [Operator.new 0 Assoc.Left, Operator.new 0 Assoc.Right] 0 =
      some (2, Assoc.Right) := by
  refine ⟨by decide, by decide, by decide⟩

/-- C6, amended: every operator reachable from the chain head at 0-based
position i whose rule occurs exactly once in the whole insert sequence is
mapped to precedence i + 1 paired with its own associativity (precedences
therefore start at 1 and increase strictly across groups). -/
theorem new_maps_unique_rule (ops : List Operator) (i : Nat) (hi : i < ops.length)
    (r : Rule) (a : Assoc)
    (hmem : (r, a) ∈ chainOps (ops.get ⟨i, hi⟩))
    (huniq : ((insertLog ops).filter fun e => decide (e.1 = r)).length = 1) :
    PrecClimber.new ops r = some (i + 1, a) := by
  have hlog : (r, 1 + i, a) ∈ insertLog ops :=
    mem_logBuild_of_mem_chainOps r a ops 1 i hi hmem
  have hfil : (r, 1 + i, a) ∈ ((insertLog ops).filter fun e => decide (e.1 = r)) :=
    List.mem_filter.mpr ⟨hlog, by simp⟩
  obtain ⟨x, hx⟩ := List.length_eq_one.mp huniq
  rw [hx, List.mem_singleton] at hfil
  have h2 := lookupLast_of_filter_singleton r x (insertLog ops) hx
  rw [← hfil] at h2
  rw [new_eq_lookupLast ops r, h2]
  show some (1 + i, a) = some (i + 1, a)
  rw [Nat.add_comm 1 i]

/-- Witness for `new_maps_unique_rule`: in the groups of `opsAddMul`, rule 3
sits at position 1 and occurs once, so it is mapped to precedence 1 + 1. -/
theorem new_maps_unique_rule_witness :
    1 < ([Operator.new 1 Assoc.Left, Operator.new 3 Assoc.Left] : List Operator).length ∧
    PrecClimber.new [Operator.new 1 Assoc.Left, Operator.new 3 Assoc.Left] 3 =
      some (1 + 1, Assoc.Left) :=
  ⟨by decide, new_maps_unique_rule [Operator.new 1 Assoc.Left, Operator.new 3 Assoc.Left]
    1 (by decide) 3 Assoc.Left (by decide) (by decide)⟩

/-- C2: the group-with operation does not append at the tail of the left
chain, it overwrites its next link; combining left-nested, ((0 | 1) | 2),
loses operator 1: the chain holds only rules 0 and 2, and the table built
from it has no entry at all for rule 1 while 0 and 2 share precedence 1. -/
theorem bitor_drops_middle_operator :
    chainOps (Operator.bitor (Operator.bitor (Operator.new 0 Assoc.Left)
        (Operator.new 1 Assoc.Left)) (Operator.new 2 Assoc.Left)) =
      [(0, Assoc.Left), (2, Assoc.Left)] ∧
    PrecClimber.new [Operator.bitor (Operator.bitor (Operator.new 0 Assoc.Left)
        (Operator.new 1 Assoc.Left)) (Operator.new 2 Assoc.Left)] 1 = none ∧
    PrecClimber.new [Operator.bitor (Operator.bitor (Operator.new 0 Assoc.Left)
        (Operator.new 1 Assoc.Left)) (Operator.new 2 Assoc.Left)] 0 =
      some (1, Assoc.Left) ∧
    PrecClimber.new [Operator.bitor (Operator.bitor (Operator.new 0 Assoc.Left)
        (Operator.new 1 Assoc.Left)) (Operator.new 2 Assoc.Left)] 2 =
      some (1, Assoc.Left) := by
  refine ⟨by decide, by decide, by decide, by decide⟩

/-- C1, counterexample: in a table where the current operator (rule 1) is
left-associative and the peeked operator (rule 2) is right-associative at the
same precedence, the code does recurse (the result is right-nested), while
an engine following the claim (tie-break on the current operator) stops and
produces the left-nested result — the two differ. -/
theorem lookahead_current_assoc_counterexample :
    climb opsMixed Expr.prim Expr.node [pa, plus1, pb, pow1, pc] =
      Res.ok (Expr.node (Expr.prim pa) plus1
        (Expr.node (Expr.prim pb) pow1 (Expr.prim pc))) [] ∧
    climbClaim opsMixed Expr.prim Expr.node [pa, plus1, pb, pow1, pc] =
      Res.ok (Expr.node (Expr.node (Expr.prim pa) plus1 (Expr.prim pb)) pow1
        (Expr.prim pc)) [] ∧
    climb opsMixed Expr.prim Expr.node [pa, plus1, pb, pow1, pc] ≠
      climbClaim opsMixed Expr.prim Expr.node [pa, plus1, pb, pow1, pc] := by
  refine ⟨by decide, by decide, by decide⟩

/-- C1, amended: after an operator of precedence `prec` and its provisional
right-hand side have been consumed, the engine recursively climbs into the
right-hand side exactly when the peeked token is a table operator whose
precedence is strictly greater than `prec`, or equal to `prec` with the
PEEKED (next) operator right-associative; the recursive call's
minimum-binding threshold is the peeked operator's precedence `newPrec`. -/
theorem innerLoop_lookahead_next_assoc (T : Type) (ops : RuleMap)
    (primary : Pair → T) (infx : T → Pair → T → T) (fuel : Nat) (rhs : T)
    (prec : Nat) (r : Pair) (rest : List Pair) (newPrec : Nat) (assoc : Assoc)
    (hop : ops r.rule = some (newPrec, assoc)) :
    innerLoop ops primary infx (fuel + 1) rhs prec (r :: rest) =
      if newPrec > prec ∨ (assoc = Assoc.Right ∧ newPrec = prec) then
        match climbRec ops primary infx fuel rhs newPrec (r :: rest) with
        | Res.ok rhs2 rest2 => innerLoop ops primary infx fuel rhs2 prec rest2
        | e => e
      else Res.ok rhs (r :: rest) := by
  rw [innerLoop.eq_def]
  simp only [hop]

/-- Witness for `innerLoop_lookahead_next_assoc` at the `opsMixed` table with
the right-associative rule 2 peeked at equal precedence 1. -/
theorem innerLoop_lookahead_next_assoc_witness :
    opsMixed pow1.rule = some (1, Assoc.Right) ∧
    innerLoop opsMixed Expr.prim Expr.node (5 + 1) (Expr.prim pb) 1 (pow1 :: [pc]) =
      (if 1 > 1 ∨ (Assoc.Right = Assoc.Right ∧ 1 = 1) then
        match climbRec opsMixed Expr.prim Expr.node 5 (Expr.prim pb) 1 (pow1 :: [pc]) with
        | Res.ok rhs2 rest2 => innerLoop opsMixed Expr.prim Expr.node 5 rhs2 1 rest2
        | e => e
      else Res.ok (Expr.prim pb) (pow1 :: [pc])) :=
  ⟨by decide, innerLoop_lookahead_next_assoc Expr opsMixed Expr.prim Expr.node 5
    (Expr.prim pb) 1 pow1 [pc] 1 Assoc.Right (by decide)⟩

/-- C3: with the single left-associative operator of `opsAdd`, tokens
a + b + c reduce left-nested, ((a + b) + c); with the single
right-associative operator of `opsPow`, tokens a ^ b ^ c reduce
right-nested, (a ^ (b ^ c)). The operator tokens carry distinct payloads, so
the trees also witness which occurrence ended up where. -/
theorem climb_associativity :
    climb opsAdd Expr.prim Expr.node [pa, plus1, pb, plus2, pc] =
      Res.ok (Expr.node (Expr.node (Expr.prim pa) plus1 (Expr.prim pb)) plus2
        (Expr.prim pc)) [] ∧
    climb opsPow Expr.prim Expr.node [pa, pow1, pb, pow2, pc] =
      Res.ok (Expr.node (Expr.prim pa) pow1 (Expr.node (Expr.prim pb) pow2
        (Expr.prim pc))) [] := by
  refine ⟨by decide, by decide⟩

/-- C4: with + at precedence 1 and * at precedence 2, tokens a + b * c reduce
as a + (b * c) and not as (a + b) * c. -/
theorem climb_precedence_order :
    climb opsAddMul Expr.prim Expr.node [pa, plus1, pb, mul1, pc] =
      Res.ok (Expr.node (Expr.prim pa) plus1
        (Expr.node (Expr.prim pb) mul1 (Expr.prim pc))) [] ∧
    climb opsAddMul Expr.prim Expr.node [pa, plus1, pb, mul1, pc] ≠
      Res.ok (Expr.node (Expr.node (Expr.prim pa) plus1 (Expr.prim pb)) mul1
        (Expr.prim pc)) [] := by
  refine ⟨by decide, by decide⟩

/-- C5: climb aborts with the empty-input condition exactly on the empty
sequence; a consumed operator with no following token aborts with the
missing-operand condition (shown at the spec's token shape a +); and on
every correctly alternating sequence no abort happens and a value is
returned. -/
theorem climb_abort_conditions :
    (∀ (T : Type) (ops : RuleMap) (primary : Pair → T) (infx : T → Pair → T → T)
      (pairs : List Pair),
      climb ops primary infx pairs = Res.errEmpty ↔ pairs = []) ∧
    climb opsAdd Expr.prim Expr.node [pa, plus1] = Res.missingOperand ∧
    (∀ (T : Type) (ops : RuleMap) (primary : Pair → T) (infx : T → Pair → T → T)
      (pairs : List Pair), Alternates ops pairs →
      ∃ v rest, climb ops primary infx pairs = Res.ok v rest) := by
  refine ⟨?_, by decide, ?_⟩
  · intro T ops primary infx pairs
    cases pairs with
    | nil => simp [climb]
    | cons p rest =>
      simp only [climb]
      constructor
      · intro h
        exact absurd h ((engine_ne_errEmpty _).1 T ops primary infx (primary p) 0 rest)
      · intro h
        exact absurd h (List.cons_ne_nil p rest)
  · intro T ops primary infx pairs halt
    obtain ⟨hodd, -, -⟩ := halt
    cases pairs with
    | nil => simp at hodd
    | cons p rest =>
      have heven : rest.length % 2 = 0 := by
        simp only [List.length_cons] at hodd
        omega
      obtain hout | ⟨v, rest2, hok, -⟩ :=
        (engine_even (2 * rest.length + 1)).1 T ops primary infx (primary p) 0 rest heven
      · exact absurd hout
          ((engine_fuel_sufficient _).1 T ops primary infx (primary p) 0 rest (Nat.le_refl _))
      · exact ⟨v, rest2, hok⟩

/-- Witness for `climb_abort_conditions`: the sequence a + b alternates for
the `opsAdd` table and climbs to a value. -/
theorem climb_abort_conditions_witness :
    Alternates opsAdd [pa, plus1, pb] ∧
    (∃ v rest, climb opsAdd Expr.prim Expr.node [pa, plus1, pb] = Res.ok v rest) :=
  ⟨by decide, climb_abort_conditions.2.2 Expr opsAdd Expr.prim Expr.node
    [pa, plus1, pb] (by decide)⟩

/-- C8: whenever the peeked token's rule is absent from the table the engine
stops, returning the accumulated left-hand value, and leaves that token and
every token after it unconsumed; in particular the engine state after a + b
followed by an unknown token j and arbitrary further tokens is the reduced
a + b with j and everything after it still in the iterator, and climb on the
concrete such sequence returns exactly that. -/
theorem climb_stops_at_unknown_rule :
    (∀ (T : Type) (ops : RuleMap) (primary : Pair → T) (infx : T → Pair → T → T)
      (fuel : Nat) (lhs : T) (minPrec : Nat) (r : Pair) (rest : List Pair),
      ops r.rule = none →
      climbRec ops primary infx (fuel + 1) lhs minPrec (r :: rest) =
        Res.ok lhs (r :: rest)) ∧
    (∀ (fuel : Nat) (j : Pair) (js : List Pair), opsAdd j.rule = none →
      climbRec opsAdd Expr.prim Expr.node (fuel + 1 + 1) (Expr.prim pa) 0
        (plus1 :: pb :: j :: js) =
        Res.ok (Expr.node (Expr.prim pa) plus1 (Expr.prim pb)) (j :: js)) ∧
    climb opsAdd Expr.prim Expr.node [pa, plus1, pb, jOut, jOut2] =
      Res.ok (Expr.node (Expr.prim pa) plus1 (Expr.prim pb)) [jOut, jOut2] := by
  refine ⟨?_, ?_, by decide⟩
  · intro T ops primary infx fuel lhs minPrec r rest hop
    rw [climbRec.eq_def]
    simp [hop]
  · intro fuel j js hj
    have hplus : opsAdd plus1.rule = some (1, Assoc.Left) := by decide
    rw [climbRec.eq_def]
    simp only [hplus]
    rw [innerLoop.eq_def]
    simp only [hj]
    rw [climbRec.eq_def]
    simp [hj]

/-- Witness for `climb_stops_at_unknown_rule`: rule 99 is unknown to
`opsAdd`, so the engine stops on it at once. -/
theorem climb_stops_at_unknown_rule_witness :
    opsAdd jOut.rule = none ∧
    climbRec opsAdd Expr.prim Expr.node (4 + 1) (Expr.prim pa) 0 (jOut :: [pb]) =
      Res.ok (Expr.prim pa) (jOut :: [pb]) :=
  ⟨by decide, climb_stops_at_unknown_rule.1 Expr opsAdd Expr.prim Expr.node 4
    (Expr.prim pa) 0 jOut [pb] (by decide)⟩

/-- C9: on a single-token sequence climb returns the primary-mapped value of
that token, for every combining callback — the result does not depend on the
combining callback, so it is never invoked; the second conjunct flags this
with a combining callback that would change the value. -/
theorem climb_single_token :
    (∀ (T : Type) (ops : RuleMap) (primary : Pair → T) (infx : T → Pair → T → T)
      (a : Pair), climb ops primary infx [a] = Res.ok (primary a) []) ∧
    (∀ (ops : RuleMap) (a : Pair),
      climb ops (fun _ => false) (fun _ _ _ => true) [a] = Res.ok false []) := by
  constructor
  · intro T ops primary infx a
    rfl
  · intro ops a
    rfl

/-- C10: climbing terminates on every finite token sequence: the fuel
2n + 1 is enough for the outer loop on n remaining tokens (each loop
iteration that does not exit consumes two tokens, each recursive call works
on a shorter remainder), any larger fuel computes the same result, and the
entry point never exhausts its budget. -/
theorem climb_terminates :
    (∀ (T : Type) (ops : RuleMap) (primary : Pair → T) (infx : T → Pair → T → T)
      (lhs : T) (minPrec : Nat) (pairs : List Pair) (fuel : Nat),
      2 * pairs.length + 1 ≤ fuel →
      climbRec ops primary infx fuel lhs minPrec pairs =
        climbRec ops primary infx (2 * pairs.length + 1) lhs minPrec pairs ∧
      climbRec ops primary infx (2 * pairs.length + 1) lhs minPrec pairs ≠
        Res.outOfFuel) ∧
    (∀ (T : Type) (ops : RuleMap) (primary : Pair → T) (infx : T → Pair → T → T)
      (pairs : List Pair), climb ops primary infx pairs ≠ Res.outOfFuel) := by
  constructor
  · intro T ops primary infx lhs minPrec pairs fuel hf
    have hne := (engine_fuel_sufficient (2 * pairs.length + 1)).1 T ops primary infx
      lhs minPrec pairs (Nat.le_refl _)
    exact ⟨(engine_fuel_stable (2 * pairs.length + 1)).1 fuel T ops primary infx
      lhs minPrec pairs hf hne, hne⟩
  · intro T ops primary infx pairs
    cases pairs with
    | nil => simp [climb]
    | cons p rest =>
      simp only [climb]
      exact (engine_fuel_sufficient _).1 T ops primary infx (primary p) 0 rest
        (Nat.le_refl _)

/-- Witness for `climb_terminates`: fuel 9 exceeds the bound 5 for two
remaining tokens and computes the same completed result. -/
theorem climb_terminates_witness :
    climbRec opsAdd Expr.prim Expr.node 9 (Expr.prim pa) 0 [plus1, pb] =
      climbRec opsAdd Expr.prim Expr.node (2 * ([plus1, pb] : List Pair).length + 1)
        (Expr.prim pa) 0 [plus1, pb] ∧
    climbRec opsAdd Expr.prim Expr.node (2 * ([plus1, pb] : List Pair).length + 1)
      (Expr.prim pa) 0 [plus1, pb] ≠ Res.outOfFuel :=
  climb_terminates.1 Expr opsAdd Expr.prim Expr.node (Expr.prim pa) 0 [plus1, pb] 9
    (by decide)

end Pest
